import Mathlib

/-!
# Verification of the diagnostic-pipeline configuration/draft/handoff engine

Shallow embedding of the Python sources `requirements_loader.py`,
`step4_json_store.py` and `step4_final_handoff.py` of the
`diagnostic_pipeline_ui` repository, together with proofs of the spec's
claims about them.

JSON values are modelled by the inductive `JVal`; Python `dict`s are
modelled as insertion-ordered association lists (`PyDict`), with
`dget` / `dset` / `dupd` mirroring `d[k]`, `d[k] = v` and `d.update(h)`
(a `dict` assignment replaces the value in place when the key is present
and appends otherwise, which is exactly CPython's semantics).
File contents are modelled by `FileState` (absent / unparseable / parsed
JSON value); timestamps (`datetime.now().isoformat()` and
`strftime`) are passed in as opaque strings.
-/

set_option autoImplicit false

namespace DiagPipeline

/-- A JSON value, as produced by `json.load`. Objects keep key order. -/
inductive JVal where
  | null : JVal
  | bool : Bool → JVal
  | num : Int → JVal
  | str : String → JVal
  | arr : List JVal → JVal
  | obj : List (String × JVal) → JVal

/-- A Python `dict` with string keys and JSON values: an insertion-ordered
association list. A genuine Python `dict` additionally has no duplicate
keys; theorems assume `NodupKeys` where that matters. -/
abbrev PyDict := List (String × JVal)

/-- `d.get(k)` / `d[k]` lookup: first entry with the given key. -/
def dget (d : PyDict) (k : String) : Option JVal :=
  match d with
  | [] => none
  | (k', v) :: t => if k' = k then some v else dget t k

/-- `d[k] = v`: replace the value in place if `k` is present, else append. -/
def dset (d : PyDict) (k : String) (v : JVal) : PyDict :=
  match d with
  | [] => [(k, v)]
  | (k', v') :: t => if k' = k then (k', v) :: t else (k', v') :: dset t k v

/-- `d.update(h)`: assign each entry of `h` into `d`, left to right. -/
def dupd (d : PyDict) (h : PyDict) : PyDict :=
  h.foldl (fun acc p => dset acc p.1 p.2) d

/-- `k in d`. -/
def hasKey (d : PyDict) (k : String) : Bool :=
  (dget d k).isSome

/-- The keys of `d`, in order. -/
def dkeys (d : PyDict) : List String := d.map Prod.fst

/-- The invariant of a real Python `dict`: keys are pairwise distinct. -/
def NodupKeys (d : PyDict) : Prop := (dkeys d).Nodup

instance (d : PyDict) : Decidable (NodupKeys d) := by
  unfold NodupKeys; infer_instance

/-- Python truthiness of a JSON value (`bool(v)`): `None`, `False`, `0`,
`""`, `[]` and `{}` are falsy, everything else truthy. -/
def pyTruthy : JVal → Bool
  | .null => false
  | .bool b => b
  | .num n => n != 0
  | .str s => s ≠ ""
  | .arr l => !l.isEmpty
  | .obj l => !l.isEmpty

/-- The dict stored under key `k` of `d`, or `{}` when `k` is absent or its
value is not a dict (used to phrase frame conditions about prior drafts). -/
def subDict (d : PyDict) (k : String) : PyDict :=
  match dget d k with
  | some (.obj x) => x
  | _ => []

/-! ## Python string helpers (modelled on `List Char`)

`str.split` with a one-character separator, `str.join`, `str.rstrip` and
`str.endswith`, as used by `requirements_loader.py`. They are stated on
`List Char` (`String.data`) so that their algebra can be proved by
structural induction. -/

/-- `s.split(c)` for a single-character separator `c`: CPython returns the
(possibly empty) segments between occurrences of `c`, and `"".split(c)`
is `[""]`. -/
def pySplitCh (c : Char) : List Char → List (List Char)
  | [] => [[]]
  | x :: xs =>
      if x = c then [] :: pySplitCh c xs
      else
        match pySplitCh c xs with
        | [] => [[x]]
        | seg :: rest => (x :: seg) :: rest

/-- `c.join(segments)` for a one-character joiner. -/
def joinCh (c : Char) : List (List Char) → List Char
  | [] => []
  | [x] => x
  | x :: xs => x ++ c :: joinCh c xs

/-- `s.rstrip(c)`: remove every trailing occurrence of `c`. -/
def rstripCh (c : Char) (l : List Char) : List Char :=
  (l.reverse.dropWhile (fun x => x = c)).reverse

/-- `s.endswith(suffix)`. -/
def pyEndsWith (s suffix : String) : Bool :=
  decide (suffix.data <:+ s.data)

/-- `s.upper()` (ASCII; the configuration names in this repository are ASCII). -/
def pyUpper (s : String) : String := String.mk (s.data.map Char.toUpper)

/-- `s.lower()` (ASCII). -/
def pyLower (s : String) : String := String.mk (s.data.map Char.toLower)

/-- `s.strip()`: remove leading and trailing whitespace. -/
def pyStrip (l : List Char) : List Char :=
  ((l.dropWhile Char.isWhitespace).reverse.dropWhile Char.isWhitespace).reverse

/-- `value.upper().split(" ")[0].split("(")[0].strip()`, the normalization
applied to each argument of `_build_lookup_key` (lines 81-82). `split`
always returns a non-empty list, so the `[0]` never raises. -/
def normalizeSelection (s : String) : String :=
  let afterSpace := (pySplitCh ' ' (pyUpper s).data).headD []
  let afterParen := (pySplitCh '(' afterSpace).headD []
  String.mk (pyStrip afterParen)

/-! ## `requirements_loader.py` : `RequirementsLoader` -/

/-- `_build_lookup_key` (requirements_loader.py lines 68-88):
`purpose.upper().split(" ")[0].split("(")[0].strip()` for each argument,
the `"IFRS" → "IFRS9"` special case, then
`f"{purpose_normalized}_{model_type_normalized}_Requirements"`. -/
def build_lookup_key (purpose model_type : String) : String :=
  let purpose_normalized := normalizeSelection purpose
  let model_type_normalized := normalizeSelection model_type
  let purpose_normalized :=
    if purpose_normalized = "IFRS" then "IFRS9" else purpose_normalized
  purpose_normalized ++ "_" ++ model_type_normalized ++ "_Requirements"

/-- The state of a file on disk, at the granularity `json.load` sees it:
absent, present but not parseable as JSON, or present with parsed value `v`. -/
inductive FileState where
  | absent : FileState
  | malformed : FileState
  | jcontent : JVal → FileState

/-- `_load_requirements_file` (lines 38-66): `FileNotFoundError` if the
file is absent, `json.JSONDecodeError` if it is not valid JSON, else the
parsed value. (The instance cache only affects repeated calls and is
invisible to single-call behaviour, so it is not modelled.) -/
def load_requirements_file : FileState → Except String JVal
  | .absent => .error "FileNotFoundError: Requirements context file not found"
  | .malformed => .error "JSONDecodeError: Invalid JSON in requirements file"
  | .jcontent v => .ok v

/-- Lines 121-124 of `get_active_requirements`: if the field config is a
dict with a textual `mandatory`, replace it by
`field_config["mandatory"].lower() == "true"`; otherwise leave it alone. -/
def normalizeMandatory (field_config : JVal) : JVal :=
  match field_config with
  | .obj fc =>
      match dget fc "mandatory" with
      | some (.str s) => .obj (dset fc "mandatory" (.bool (pyLower s = "true")))
      | _ => .obj fc
  | v => v

/-- The `mandatory` attribute of a field spec, when the spec is a dict that
carries one. -/
def mandatoryOf (field_config : JVal) : Option JVal :=
  match field_config with
  | .obj fc => dget fc "mandatory"
  | _ => none

/-- The schema-document field-spec type of the spec's §6: the `mandatory`
attribute, when present, is `bool | "true" | "false"` — a boolean or a
string. -/
def MandatoryTyped (field_config : JVal) : Prop :=
  ∀ m, mandatoryOf field_config = some m → (∃ b, m = .bool b) ∨ (∃ s, m = .str s)

/-- `get_active_requirements` (lines 90-126): build the lookup key, load
the file, fail with `ValueError` when the key is absent, else return the
requirement set with textual `mandatory` values normalised to booleans.
A document or requirement set that is not a dict is outside the schema
document type; CPython would raise there (`in` / `.items()` on a
non-dict), modelled by the corresponding error. -/
def get_active_requirements (file : FileState) (purpose model_type : String) :
    Except String JVal :=
  let lookup_key := build_lookup_key purpose model_type
  match load_requirements_file file with
  | .error e => .error e
  | .ok (.obj requirements_data) =>
      match dget requirements_data lookup_key with
      | none => .error ("No requirements defined for configuration: " ++ lookup_key)
      | some (.obj active_requirements) =>
          .ok (.obj (active_requirements.map (fun p => (p.1, normalizeMandatory p.2))))
      | some _ => .error "AttributeError"
  | .ok _ => .error "TypeError"

/-- The key parsing inside the loop of `get_available_configurations`
(lines 157-175): keep keys ending in `"_Requirements"`, split
`key[:-12]` on `"_"`, require at least two parts, take `parts[0]` as
purpose, `parts[1]` or `"_".join(parts[1:])` as model type, and strip
trailing underscores from the model type. -/
def parseConfigKey (key : String) : Option (String × String) :=
  if pyEndsWith key "_Requirements" then
    let parts := pySplitCh '_' (key.data.take (key.data.length - 12))
    if parts.length ≥ 2 then
      let purpose := parts.headD []
      let model_type :=
        if parts.length > 2 then joinCh '_' (parts.drop 1)
        else (parts.drop 1).headD []
      some (String.mk purpose, String.mk (rstripCh '_' model_type))
    else none
  else none

/-- The `for key in requirements_data.keys()` loop of
`get_available_configurations`, accumulating `configurations[key] = ...`. -/
def buildConfigs : PyDict → PyDict → PyDict
  | [], acc => acc
  | p :: t, acc =>
      buildConfigs t
        (match parseConfigKey p.1 with
         | some pm =>
             dset acc p.1 (.obj [("purpose", .str pm.1), ("model_type", .str pm.2)])
         | none => acc)

/-- `get_available_configurations` (lines 146-179): swallow
`FileNotFoundError` / `JSONDecodeError` into `{}`; otherwise build the
key → `{purpose, model_type}` mapping. A loaded document that is not a
dict raises `AttributeError` in CPython (`.keys()`), which the
`except` clause does not catch. -/
def get_available_configurations (file : FileState) : Except String PyDict :=
  match load_requirements_file file with
  | .error _ => .ok []
  | .ok (.obj requirements_data) => .ok (buildConfigs requirements_data [])
  | .ok _ => .error "AttributeError"

/-! Claim-side readings of the `get_available_configurations` key parse,
used to state C6 in the spec's vocabulary ("purpose is the key's first
underscore-delimited segment", "model_type is built from the remaining
segments before the suffix", i.e. joined back with underscores and with
trailing underscores removed). -/

/-- The key's first underscore-delimited segment. -/
def specConfigPurpose (key : String) : String :=
  String.mk ((pySplitCh '_' key.data).headD [])

/-- The underscore-delimited segments of the key that precede the
`"_Requirements"` suffix (the suffix is 13 characters long). -/
def segsBeforeSuffix (key : String) : List (List Char) :=
  pySplitCh '_' (key.data.take (key.data.length - 13))

/-- The model type the claim describes: the remaining pre-suffix segments,
joined with underscores, trailing underscores removed. -/
def specConfigModelType (key : String) : String :=
  String.mk (rstripCh '_' (joinCh '_' ((segsBeforeSuffix key).drop 1)))

/-! ## `step4_json_store.py` : `Step4JSONStore` -/

namespace Step4JSONStore

/-- `Step4JSONStore.load` (step4_json_store.py lines 14-20): `{}` if the
file does not exist, the parsed value if it is a JSON object, `{}` if it
parses to a non-object; `json.load`'s `JSONDecodeError` propagates. -/
def load : FileState → Except String PyDict
  | .absent => .ok []
  | .malformed => .error "JSONDecodeError"
  | .jcontent (.obj d) => .ok d
  | .jcontent _ => .ok []

/-- The fresh `meta` dict built inside `save` (lines 23-30):
`last_updated` plus, when a `completion_status` argument was supplied,
`completion_status.mandatory_complete = bool(cs.get("all_mandatory_complete", False))`. -/
def metaFor (completion_status : Option PyDict) (now : String) : PyDict :=
  match completion_status with
  | none => [("last_updated", .str now)]
  | some cs =>
      [("last_updated", .str now),
       ("completion_status", .obj
         [("mandatory_complete",
           .bool (pyTruthy ((dget cs "all_mandatory_complete").getD (.bool false))))])]

/-- `Step4JSONStore.save` (lines 22-35): sets `data["meta"]` to the fresh
meta dict and writes `data` to the file. Returns the written file state
together with the mutated `data` dict (Python mutates `data` in place,
which the caller `upsert_field` observes). `datetime.now().isoformat()` is
the opaque `now` argument. -/
def save (data : PyDict) (completion_status : Option PyDict) (now : String) :
    FileState × PyDict :=
  let data := dset data "meta" (.obj (metaFor completion_status now))
  (.jcontent (.obj data), data)

/-- Lines 46-50 of `upsert_field`: `draft.setdefault("header", {})` then
`draft["header"].update(header)` if the stored value is a dict, else
`draft["header"] = dict(header)`. -/
def mergeHeaderStep (draft : PyDict) (header : PyDict) : PyDict :=
  let draft := if hasKey draft "header" then draft else dset draft "header" (.obj [])
  match dget draft "header" with
  | some (.obj hd) => dset draft "header" (.obj (dupd hd header))
  | _ => dset draft "header" (.obj header)

/-- Lines 52-55 of `upsert_field`: `draft.setdefault("user_specs", {})`, a
reset to `{}` if the stored value is not a dict, then
`draft["user_specs"][field] = value`. -/
def setSpecStep (draft : PyDict) (field : String) (value : JVal) : PyDict :=
  let draft := if hasKey draft "user_specs" then draft
               else dset draft "user_specs" (.obj [])
  match dget draft "user_specs" with
  | some (.obj us) => dset draft "user_specs" (.obj (dset us field value))
  | _ => dset draft "user_specs" (.obj (dset [] field value))

/-- The body of `upsert_field` after `draft = self.load()` (lines 46-58). -/
def upsertStep (draft : PyDict) (header : PyDict) (field : String) (value : JVal)
    (completion_status : Option PyDict) (now : String) : FileState × PyDict :=
  save (setSpecStep (mergeHeaderStep draft header) field value) completion_status now

/-- `Step4JSONStore.upsert_field` (lines 37-58): load the draft, merge, save.
Returns the new file state and the returned draft; a load failure
(unparseable file) propagates and nothing is written. -/
def upsert_field (fs : FileState) (header : PyDict) (field : String) (value : JVal)
    (completion_status : Option PyDict) (now : String) :
    Except String (FileState × PyDict) :=
  (load fs).map (fun draft => upsertStep draft header field value completion_status now)

end Step4JSONStore

open Step4JSONStore

/-! Equality "modulo `meta.last_updated`": `scrubMeta` blanks the value
stored under `last_updated` inside a meta object, `scrubDraft` applies it
to the value stored under `meta` of a draft, `scrubFile` to a file state,
`scrubPair` to an `upsert_field` result. -/

def scrubMeta : JVal → JVal
  | .obj m => .obj (m.map (fun p => if p.1 = "last_updated" then (p.1, JVal.null) else p))
  | v => v

def scrubDraft (d : PyDict) : PyDict :=
  d.map (fun p => if p.1 = "meta" then (p.1, scrubMeta p.2) else p)

def scrubFile : FileState → FileState
  | .jcontent (.obj d) => .jcontent (.obj (scrubDraft d))
  | fs => fs

def scrubPair (p : FileState × PyDict) : FileState × PyDict :=
  (scrubFile p.1, scrubDraft p.2)

/-- Two consecutive `upsert_field` calls with identical arguments (only the
wall-clock timestamps differ). -/
def upsertTwice (fs : FileState) (header : PyDict) (field : String) (value : JVal)
    (completion_status : Option PyDict) (t1 t2 : String) :
    Except String (FileState × PyDict) :=
  match Step4JSONStore.upsert_field fs header field value completion_status t1 with
  | .error e => .error e
  | .ok r => Step4JSONStore.upsert_field r.1 header field value completion_status t2

/-! ## `step4_final_handoff.py` : `FinalHandoffManager` -/

/-- Python `repr` of a list of strings, as interpolated by
`f"Missing required header fields: {missing}"`. -/
def pyListRepr (l : List String) : String :=
  "[" ++ String.intercalate ", " (l.map (fun s => "\x27" ++ s ++ "\x27")) ++ "]"

/-- `FinalContract` (step4_final_handoff.py lines 13-22), a frozen dataclass. -/
structure FinalContract where
  header : PyDict
  user_specs : PyDict

/-- `FinalContract.to_dict` (lines 18-22). -/
def FinalContract.to_dict (c : FinalContract) : PyDict :=
  [("header", .obj c.header), ("user_specs", .obj c.user_specs)]

/-- The required keys checked by `compile_final_json` (line 44). -/
def required_header_keys : List String := ["model_type", "portfolio", "purpose"]

/-- `missing = [k for k in required_header_keys if not header.get(k)]`
(line 45): the required keys that are absent from `header` or map to a
falsy ("empty") value. -/
def missingHeaderKeys (header : PyDict) : List String :=
  required_header_keys.filter (fun k => !pyTruthy ((dget header k).getD .null))

/-- `FinalHandoffManager.compile_final_json` (lines 38-50): collect the
required header keys whose value is missing or falsy
(`not header.get(k)`), raise `ValueError` naming them if any, else return
`FinalContract(header, user_specs).to_dict()`. The `TypeError` guards for
non-dict arguments are unreachable here because the embedding types both
arguments as dicts. -/
def compile_final_json (header user_specs : PyDict) : Except String PyDict :=
  let missing := missingHeaderKeys header
  if !missing.isEmpty then
    .error ("Missing required header fields: " ++ pyListRepr missing)
  else
    .ok (FinalContract.to_dict ⟨header, user_specs⟩)

/-- `compile_final_json` performs no draft-store I/O (its body never touches
`Step4JSONStore` or any file); threading an ambient draft-file state
through the call makes that explicit. -/
def compile_with_store (fs : FileState) (header user_specs : PyDict) :
    FileState × Except String PyDict :=
  (fs, compile_final_json header user_specs)

/-! ### The execution ledger (sqlite table `executions`) -/

/-- A minimal JSON serializer standing in for `json.dumps(..., ensure_ascii=False)`
(string escaping is limited to quotes and backslashes; the ledger claims
never inspect serialized payloads). -/
def escapeJChar (ch : Char) : String :=
  if ch = '"' then "\\\"" else if ch = '\\' then "\\\\" else String.singleton ch

def jstrDump (s : String) : String :=
  "\"" ++ String.join (s.data.map escapeJChar) ++ "\""

mutual
def JVal.dump : JVal → String
  | .null => "null"
  | .bool true => "true"
  | .bool false => "false"
  | .num n => toString n
  | .str s => jstrDump s
  | .arr xs => "[" ++ dumpArr xs ++ "]"
  | .obj ps => "\x7b" ++ dumpObj ps ++ "\x7d"

def dumpArr : List JVal → String
  | [] => ""
  | [x] => JVal.dump x
  | x :: xs => JVal.dump x ++ ", " ++ dumpArr xs

def dumpObj : List (String × JVal) → String
  | [] => ""
  | [p] => jstrDump p.1 ++ ": " ++ JVal.dump p.2
  | p :: ps => jstrDump p.1 ++ ": " ++ JVal.dump p.2 ++ ", " ++ dumpObj ps
end

/-- Python `str()` of a JSON value, as used on `execution_result.get("status")`.
(Container reprs are approximated by the JSON serializer; the recorded
statuses in this codebase are strings, where `str` is the identity.) -/
def pyStr : JVal → String
  | .str s => s
  | .bool true => "True"
  | .bool false => "False"
  | .null => "None"
  | v => JVal.dump v

/-- One row of the `executions` table
(`id, timestamp, header_json, user_specs_json, execution_status, execution_result_json`). -/
structure ExecRow where
  id : Nat
  timestamp : String
  header_json : String
  user_specs_json : String
  execution_status : String
  execution_result_json : String

/-- The backing sqlite database file: the `executions` table rows in
insertion order, plus the `AUTOINCREMENT` sequence value (sqlite persists
the largest id ever assigned in `sqlite_sequence`; it survives process
restarts and row deletion). -/
structure LedgerDB where
  seq : Nat
  rows : List ExecRow

/-- The largest rowid present in the table, 0 when empty. -/
def maxRowId (rows : List ExecRow) : Nat :=
  rows.foldr (fun r acc => max r.id acc) 0

/-- `FinalHandoffManager._init_db` (lines 102-116): `CREATE TABLE IF NOT
EXISTS` — creates an empty table on a fresh file, is a no-op on an
existing database. Run on construction, hence also on process restart. -/
def init_db : Option LedgerDB → LedgerDB
  | none => { seq := 0, rows := [] }
  | some db => db

/-- `FinalHandoffManager.save_execution_results` (lines 118-139): serialize
header / user_specs / result, extract `execution_result["status"]` (default
`"unknown"`), and insert one row. The id is assigned by sqlite
`AUTOINCREMENT`: one more than the larger of the stored sequence value and
the largest existing rowid; the sequence is updated to the new id. Returns
`cur.lastrowid` together with the new database state. -/
def save_execution_results (db : LedgerDB) (final_json : PyDict)
    (execution_result : JVal) (now : String) : Nat × LedgerDB :=
  let header_json := JVal.dump ((dget final_json "header").getD (.obj []))
  let user_specs_json := JVal.dump ((dget final_json "user_specs").getD (.obj []))
  let status :=
    match execution_result with
    | .obj er => pyStr ((dget er "status").getD (.str "unknown"))
    | _ => "unknown"
  let execution_result_json := JVal.dump execution_result
  let newId := max db.seq (maxRowId db.rows) + 1
  (newId,
   { seq := newId,
     rows := db.rows ++
       [{ id := newId, timestamp := now, header_json := header_json,
          user_specs_json := user_specs_json, execution_status := status,
          execution_result_json := execution_result_json }] })

/-- Insertion step of sorting rows by descending id (`ORDER BY id DESC`). -/
def insertRowDesc (r : ExecRow) : List ExecRow → List ExecRow
  | [] => [r]
  | x :: xs => if x.id ≤ r.id then r :: x :: xs else x :: insertRowDesc r xs

/-- `ORDER BY id DESC` over the table rows. -/
def sortRowsDesc (l : List ExecRow) : List ExecRow :=
  l.foldr insertRowDesc []

/-- `FinalHandoffManager.get_execution_history` (lines 141-154):
`SELECT id, timestamp, execution_status FROM executions ORDER BY id DESC
LIMIT ?`. -/
def get_execution_history (db : LedgerDB) (limit : Nat) :
    List (Nat × String × String) :=
  ((sortRowsDesc db.rows).take limit).map
    (fun r => (r.id, r.timestamp, r.execution_status))

/-- Well-formedness of the backing database: rows were inserted with
strictly increasing ids, all of them recorded in the sequence value. Holds
of the freshly created database and is preserved by every insert. -/
def WFLedger (db : LedgerDB) : Prop :=
  db.rows.Pairwise (fun a b => a.id < b.id) ∧ ∀ r ∈ db.rows, r.id ≤ db.seq

instance (db : LedgerDB) : Decidable (WFLedger db) := by
  unfold WFLedger; infer_instance

/-! ## Association-list lemmas -/

theorem dget_dset_self (d : PyDict) (k : String) (v : JVal) :
    dget (dset d k v) k = some v := by
  induction d with
  | nil => simp [dget, dset]
  | cons p t ih =>
    obtain ⟨k', v'⟩ := p
    by_cases h : k' = k <;> simp [dget, dset, h, ih]

theorem dget_dset_ne (d : PyDict) (k k' : String) (v : JVal) (hne : k' ≠ k) :
    dget (dset d k v) k' = dget d k' := by
  have hne' : k ≠ k' := fun h => hne h.symm
  induction d with
  | nil => simp [dget, dset, hne']
  | cons p t ih =>
    obtain ⟨k₀, v₀⟩ := p
    by_cases h : k₀ = k
    · subst h
      simp [dget, dset, hne']
    · simp only [dset, if_neg h]
      by_cases h' : k₀ = k' <;> simp [dget, h', ih]

/-- Re-assigning the value a key already holds leaves the dict unchanged. -/
theorem dset_eq_of_dget (d : PyDict) (k : String) (v : JVal)
    (h : dget d k = some v) : dset d k v = d := by
  induction d with
  | nil => simp [dget] at h
  | cons p t ih =>
    obtain ⟨k', v'⟩ := p
    by_cases hk : k' = k
    · subst hk
      simp [dget] at h
      simp [dset, h]
    · simp [dget, hk] at h
      simp [dset, hk, ih h]

theorem dset_dset_same (d : PyDict) (k : String) (v w : JVal) :
    dset (dset d k v) k w = dset d k w := by
  induction d with
  | nil => simp [dset]
  | cons p t ih =>
    obtain ⟨k', v'⟩ := p
    by_cases h : k' = k <;> simp [dset, h, ih]

theorem dget_of_mem_nodup (d : PyDict) (k : String) (v : JVal)
    (hnd : NodupKeys d) (hm : (k, v) ∈ d) : dget d k = some v := by
  induction d with
  | nil => simp at hm
  | cons p t ih =>
    obtain ⟨k', v'⟩ := p
    unfold NodupKeys dkeys at hnd
    simp only [List.map_cons, List.nodup_cons] at hnd
    rcases List.mem_cons.mp hm with h | h
    · simp only [Prod.mk.injEq] at h
      obtain ⟨rfl, rfl⟩ := h
      simp [dget]
    · have hk : k' ≠ k := by
        rintro rfl
        exact hnd.1 (List.mem_map.mpr ⟨(k', v), h, rfl⟩)
      simp [dget, hk]
      exact ih hnd.2 h

theorem dupd_nil (d : PyDict) : dupd d [] = d := rfl

theorem dupd_cons (d : PyDict) (p : String × JVal) (h : PyDict) :
    dupd d (p :: h) = dupd (dset d p.1 p.2) h := rfl

theorem dget_dupd_of_not_key (d h : PyDict) (k : String)
    (hk : dget h k = none) : dget (dupd d h) k = dget d k := by
  induction h generalizing d with
  | nil => rfl
  | cons p t ih =>
    obtain ⟨k', v'⟩ := p
    rw [dupd_cons]
    by_cases hkk : k' = k
    · subst hkk; simp [dget] at hk
    · rw [ih _ (by simpa [dget, hkk] using hk)]
      exact dget_dset_ne _ _ _ _ (fun h => hkk h.symm)

theorem dget_dupd_of_key (d h : PyDict) (k : String) (v : JVal)
    (hnd : NodupKeys h) (hk : dget h k = some v) :
    dget (dupd d h) k = some v := by
  induction h generalizing d with
  | nil => simp [dget] at hk
  | cons p t ih =>
    obtain ⟨k', v'⟩ := p
    unfold NodupKeys dkeys at hnd
    simp only [List.map_cons, List.nodup_cons] at hnd
    rw [dupd_cons]
    by_cases hkk : k' = k
    · subst hkk
      simp [dget] at hk
      subst hk
      have ht : dget t k' = none := by
        cases hdg : dget t k' with
        | none => rfl
        | some w =>
          exact absurd (List.mem_map.mpr ⟨(k', w), by
            clear ih hnd
            induction t with
            | nil => simp [dget] at hdg
            | cons q s ihh =>
              obtain ⟨kq, vq⟩ := q
              by_cases hq : kq = k'
              · subst hq; simp [dget] at hdg; simp [hdg]
              · simp [dget, hq] at hdg
                simp [ihh hdg], rfl⟩) hnd.1
      rw [dget_dupd_of_not_key _ _ _ ht]
      exact dget_dset_self _ _ _
    · simp [dget, hkk] at hk
      exact ih _ hnd.2 hk

/-- `dget` after `d.update(h)`: keys of `h` take `h`'s value, others keep
`d`'s (last-write-wins per key, missing keys preserved). -/
theorem dget_dupd (d h : PyDict) (k : String) (hnd : NodupKeys h) :
    dget (dupd d h) k = match dget h k with
      | some v => some v
      | none => dget d k := by
  cases hk : dget h k with
  | none => exact dget_dupd_of_not_key d h k hk
  | some v => exact dget_dupd_of_key d h k v hnd hk

/-- Updating a dict with entries it already holds leaves it unchanged. -/
theorem dupd_self_eq (D h : PyDict)
    (hall : ∀ p ∈ h, dget D p.1 = some p.2) : dupd D h = D := by
  induction h with
  | nil => rfl
  | cons p t ih =>
    rw [dupd_cons, dset_eq_of_dget _ _ _ (hall p (List.mem_cons_self _ _))]
    exact ih (fun q hq => hall q (List.mem_cons_of_mem _ hq))

theorem dget_dupd_mem (d h : PyDict) (hnd : NodupKeys h) :
    ∀ p ∈ h, dget (dupd d h) p.1 = some p.2 := by
  intro p hp
  exact dget_dupd_of_key d h p.1 p.2 hnd
    (dget_of_mem_nodup h p.1 p.2 hnd hp)

/-- `d.update(h)` is idempotent for a genuine dict `h`. -/
theorem dupd_idem (d h : PyDict) (hnd : NodupKeys h) :
    dupd (dupd d h) h = dupd d h :=
  dupd_self_eq _ _ (dget_dupd_mem d h hnd)

/-- Updating a dict with itself leaves it unchanged. -/
theorem dupd_self (h : PyDict) (hnd : NodupKeys h) : dupd h h = h :=
  dupd_self_eq _ _ (fun p hp => dget_of_mem_nodup h p.1 p.2 hnd hp)

/-! ## C7 and C9 : `_build_lookup_key` -/

/-- C7: `_build_lookup_key` strips trailing parenthetical/descriptive
suffixes, uppercases, and collapses `"IFRS"` to `"IFRS9"`:
`_build_lookup_key("AIRB (Advanced Internal Ratings-Based)", "PD (Probability of Default)")`
is `"AIRB_PD_Requirements"` and `_build_lookup_key("IFRS 9", "LGD")` is
`"IFRS9_LGD_Requirements"` (a lowercase input is uppercased the same way). -/
theorem build_lookup_key_examples :
    build_lookup_key "AIRB (Advanced Internal Ratings-Based)" "PD (Probability of Default)"
      = "AIRB_PD_Requirements" ∧
    build_lookup_key "IFRS 9" "LGD" = "IFRS9_LGD_Requirements" ∧
    build_lookup_key "airb (advanced)" "pd" = "AIRB_PD_Requirements" := by
  refine ⟨?_, ?_, ?_⟩ <;> decide

/-- C9: `_build_lookup_key` is a total deterministic pure function over
arbitrary input strings (it is a Lean function, so totality and determinism
hold by construction and no exception is possible), and every produced key
ends in `"_Requirements"`. -/
theorem build_lookup_key_total (purpose model_type : String) :
    "_Requirements".data <:+ (build_lookup_key purpose model_type).data := by
  have h : ∀ a b : String, "_Requirements".data <:+ (a ++ "_" ++ b ++ "_Requirements").data := by
    intro a b
    exact ⟨(a ++ "_" ++ b).data, by simp [String.data_append]⟩
  simp only [build_lookup_key]
  exact h _ _

/-! ## C1 : `compile_final_json` -/

/-- C1: if any of `model_type`, `portfolio`, `purpose` is absent from the
header or maps to an empty (falsy) value, `compile_final_json` raises a
`ValueError` whose message names exactly the missing/empty keys; otherwise
it returns a contract whose `header` and `user_specs` equal the inputs.
It never touches the draft store (`compile_with_store` threads an ambient
draft-file state through unchanged). `compile({}, {})` names all three
keys — instantiated in the witness. -/
theorem compile_final_json_spec (header user_specs : PyDict) :
    (missingHeaderKeys header = [] →
      compile_final_json header user_specs =
        .ok (FinalContract.to_dict ⟨header, user_specs⟩) ∧
      dget (FinalContract.to_dict ⟨header, user_specs⟩) "header" = some (.obj header) ∧
      dget (FinalContract.to_dict ⟨header, user_specs⟩) "user_specs" = some (.obj user_specs)) ∧
    (missingHeaderKeys header ≠ [] →
      compile_final_json header user_specs =
        .error ("Missing required header fields: " ++ pyListRepr (missingHeaderKeys header))) ∧
    (∀ k, k ∈ missingHeaderKeys header ↔
      k ∈ required_header_keys ∧ ¬pyTruthy ((dget header k).getD .null) = true) ∧
    (∀ fs : FileState, compile_with_store fs header user_specs =
      (fs, compile_final_json header user_specs)) := by
  refine ⟨?_, ?_, ?_, fun _ => rfl⟩
  · intro h
    refine ⟨?_, by simp [FinalContract.to_dict, dget], by simp [FinalContract.to_dict, dget]⟩
    simp [compile_final_json, h]
  · intro h
    simp [compile_final_json, List.isEmpty_iff, h]
  · intro k
    simp [missingHeaderKeys, List.mem_filter]

/-- C1 witness: the two branches at concrete inputs. `compile` on the
complete header round-trips; `compile({}, {})` fails naming all three keys. -/
theorem compile_final_json_spec_witness :
    compile_final_json
        [("model_type", .str "PD"), ("portfolio", .str "Retail"), ("purpose", .str "AIRB")]
        [("x", .num 1)] =
      .ok (FinalContract.to_dict
        ⟨[("model_type", .str "PD"), ("portfolio", .str "Retail"), ("purpose", .str "AIRB")],
         [("x", .num 1)]⟩) ∧
    compile_final_json [] [] =
      .error ("Missing required header fields: " ++
        pyListRepr ["model_type", "portfolio", "purpose"]) := by
  constructor
  · exact ((compile_final_json_spec
      [("model_type", .str "PD"), ("portfolio", .str "Retail"), ("purpose", .str "AIRB")]
      [("x", .num 1)]).1 (by decide)).1
  · have h := (compile_final_json_spec [] []).2.1 (by decide)
    simpa [missingHeaderKeys, required_header_keys, pyTruthy, dget] using h

/-! ## C5 : `Step4JSONStore.load` -/

/-- C5 counterexample: a draft file that exists and parses to a JSON array —
a well-formed document that is **not** of the expected shape (a mapping) —
does not make `load` fail with a parse error: `load` silently returns the
empty draft. -/
theorem load_nonmapping_counterexample :
    Step4JSONStore.load (.jcontent (.arr [])) = .ok [] ∧
    ∀ e, Step4JSONStore.load (.jcontent (.arr [])) ≠ .error e := by
  exact ⟨rfl, fun e h => Except.noConfusion h⟩

/-- C5 amended: `load` returns the empty draft when the draft file does not
exist **or** when the file parses to a non-mapping JSON value; it fails
with a parse error exactly when the file exists but is not well-formed
JSON; a mapping is returned as-is. -/
theorem load_spec :
    Step4JSONStore.load .absent = .ok [] ∧
    Step4JSONStore.load .malformed = .error "JSONDecodeError" ∧
    (∀ d : PyDict, Step4JSONStore.load (.jcontent (.obj d)) = .ok d) ∧
    (∀ v : JVal, (∀ d, v ≠ .obj d) → Step4JSONStore.load (.jcontent v) = .ok []) := by
  refine ⟨rfl, rfl, fun d => rfl, fun v hv => ?_⟩
  cases v with
  | obj d => exact absurd rfl (hv d)
  | null => rfl
  | bool b => rfl
  | num n => rfl
  | str s => rfl
  | arr l => rfl

/-- C5 amended witness: a non-mapping file value at a concrete input. -/
theorem load_spec_witness :
    Step4JSONStore.load (.jcontent (.str "x")) = .ok [] :=
  load_spec.2.2.2 (.str "x") (fun _ h => JVal.noConfusion h)

/-! ## C10 : `Step4JSONStore.save` -/

/-- C10: every `save` replaces the draft's `meta` wholesale: the persisted
`meta` holds the fresh `last_updated` timestamp; it holds a boolean
`completion_status.mandatory_complete` exactly when a `completion_status`
argument was supplied (so any previously persisted completion status is
dropped when it is omitted — the written file depends only on `data` and
the arguments); every key of `data` other than `meta` (in particular
`header` and `user_specs`) is written unchanged. -/
theorem save_meta_spec (data : PyDict) (completion_status : Option PyDict) (now : String) :
    ∃ d', Step4JSONStore.save data completion_status now = (.jcontent (.obj d'), d') ∧
      dget d' "meta" = some (.obj (Step4JSONStore.metaFor completion_status now)) ∧
      dget (Step4JSONStore.metaFor completion_status now) "last_updated" = some (.str now) ∧
      (completion_status = none →
        dget (Step4JSONStore.metaFor completion_status now) "completion_status" = none) ∧
      (∀ cs, completion_status = some cs →
        dget (Step4JSONStore.metaFor completion_status now) "completion_status" =
          some (.obj [("mandatory_complete",
            .bool (pyTruthy ((dget cs "all_mandatory_complete").getD (.bool false))))])) ∧
      (∀ k, k ≠ "meta" → dget d' k = dget data k) := by
  refine ⟨dset data "meta" (.obj (Step4JSONStore.metaFor completion_status now)),
    rfl, dget_dset_self _ _ _, ?_, ?_, ?_, ?_⟩
  · cases completion_status <;> rfl
  · rintro rfl
    rfl
  · rintro cs rfl
    rfl
  · intro k hk
    exact dget_dset_ne _ _ _ _ hk

/-- C10 witness: at a concrete draft with an old `meta` and no
`completion_status` argument, `header` is preserved and the fresh meta has
no completion status. -/
theorem save_meta_spec_witness :
    ∃ d', Step4JSONStore.save [("header", .obj []), ("meta", .str "old")] none "T" =
        (.jcontent (.obj d'), d') ∧
      dget d' "header" = some (.obj []) ∧
      dget (Step4JSONStore.metaFor none "T") "completion_status" = none := by
  obtain ⟨d', h1, _, _, h4, _, h6⟩ :=
    save_meta_spec [("header", .obj []), ("meta", .str "old")] none "T"
  exact ⟨d', h1, by rw [h6 "header" (by decide)]; rfl, h4 rfl⟩

/-! ## `upsert_field` machinery (C2, C8) -/

theorem mergeHeaderStep_spec (d0 h : PyDict) (hnd : NodupKeys h) :
    ∃ H, mergeHeaderStep d0 h = dset d0 "header" (.obj H) ∧ dupd H h = H ∧
      ∀ k, dget H k = match dget h k with
        | some w => some w
        | none => dget (subDict d0 "header") k := by
  cases hdg : dget d0 "header" with
  | none =>
    refine ⟨dupd [] h, ?_, dupd_idem [] h hnd, ?_⟩
    · simp [mergeHeaderStep, hasKey, hdg, dget_dset_self, dset_dset_same]
    · intro k
      rw [dget_dupd _ _ _ hnd]
      cases dget h k <;> simp [subDict, hdg, dget]
  | some v =>
    cases v with
    | obj hd =>
      refine ⟨dupd hd h, ?_, dupd_idem hd h hnd, ?_⟩
      · simp [mergeHeaderStep, hasKey, hdg]
      · intro k
        rw [dget_dupd _ _ _ hnd]
        cases dget h k <;> simp [subDict, hdg]
    | null =>
      refine ⟨h, by simp [mergeHeaderStep, hasKey, hdg], dupd_self h hnd, ?_⟩
      intro k; cases dget h k <;> simp [subDict, hdg, dget]
    | bool b =>
      refine ⟨h, by simp [mergeHeaderStep, hasKey, hdg], dupd_self h hnd, ?_⟩
      intro k; cases dget h k <;> simp [subDict, hdg, dget]
    | num n =>
      refine ⟨h, by simp [mergeHeaderStep, hasKey, hdg], dupd_self h hnd, ?_⟩
      intro k; cases dget h k <;> simp [subDict, hdg, dget]
    | str s =>
      refine ⟨h, by simp [mergeHeaderStep, hasKey, hdg], dupd_self h hnd, ?_⟩
      intro k; cases dget h k <;> simp [subDict, hdg, dget]
    | arr l =>
      refine ⟨h, by simp [mergeHeaderStep, hasKey, hdg], dupd_self h hnd, ?_⟩
      intro k; cases dget h k <;> simp [subDict, hdg, dget]

theorem mergeHeaderStep_stable (d h H : PyDict)
    (hdg : dget d "header" = some (.obj H)) (hH : dupd H h = H) :
    mergeHeaderStep d h = d := by
  simp [mergeHeaderStep, hasKey, hdg, hH, dset_eq_of_dget d "header" (.obj H) hdg]

theorem setSpecStep_spec (d2 : PyDict) (f : String) (v : JVal) :
    setSpecStep d2 f v = dset d2 "user_specs" (.obj (dset (subDict d2 "user_specs") f v)) := by
  cases hdg : dget d2 "user_specs" with
  | none => simp [setSpecStep, hasKey, subDict, hdg, dget_dset_self, dset_dset_same]
  | some v' =>
    cases v' <;> simp [setSpecStep, hasKey, subDict, hdg]

theorem setSpecStep_stable (d : PyDict) (f : String) (v : JVal) (U : PyDict)
    (hdg : dget d "user_specs" = some (.obj U)) (hU : dset U f v = U) :
    setSpecStep d f v = d := by
  simp [setSpecStep, hasKey, hdg, subDict, hU, dset_eq_of_dget d "user_specs" (.obj U) hdg]

/-- What one `upsert_field` body run does to a loaded draft `d0`: the saved
dict is `d0` with `header` merged (update semantics), `user_specs[f] = v`,
and a fresh `meta`. -/
theorem upsertStep_spec (d0 h : PyDict) (f : String) (v : JVal)
    (cs : Option PyDict) (now : String) (hnd : NodupKeys h) :
    ∃ D H U,
      Step4JSONStore.upsertStep d0 h f v cs now =
        (.jcontent (.obj (dset D "meta" (.obj (Step4JSONStore.metaFor cs now)))),
         dset D "meta" (.obj (Step4JSONStore.metaFor cs now))) ∧
      dget D "header" = some (.obj H) ∧
      dget D "user_specs" = some (.obj U) ∧
      dupd H h = H ∧
      dset U f v = U ∧
      (∀ k, dget H k = match dget h k with
        | some w => some w
        | none => dget (subDict d0 "header") k) ∧
      dget U f = some v ∧
      (∀ k, k ≠ f → dget U k = dget (subDict d0 "user_specs") k) := by
  obtain ⟨H, hmerge, hHh, hHchar⟩ := mergeHeaderStep_spec d0 h hnd
  refine ⟨setSpecStep (mergeHeaderStep d0 h) f v, H,
    dset (subDict (dset d0 "header" (.obj H)) "user_specs") f v, rfl, ?_, ?_, hHh, ?_, ?_, ?_, ?_⟩
  · rw [hmerge, setSpecStep_spec]
    rw [dget_dset_ne _ _ _ _ (by decide), dget_dset_self]
  · rw [hmerge, setSpecStep_spec, dget_dset_self]
  · exact dset_dset_same _ _ _ _
  · exact hHchar
  · exact dget_dset_self _ _ _
  · intro k hk
    rw [dget_dset_ne _ _ _ _ hk]
    have : subDict (dset d0 "header" (.obj H)) "user_specs" = subDict d0 "user_specs" := by
      unfold subDict
      rw [dget_dset_ne _ _ _ _ (by decide)]
    rw [this]

theorem scrubDraft_dset_meta (X : PyDict) (M : JVal) :
    scrubDraft (dset X "meta" M) = dset (scrubDraft X) "meta" (scrubMeta M) := by
  induction X with
  | nil => simp [scrubDraft, dset]
  | cons p t ih =>
    obtain ⟨k, w⟩ := p
    by_cases hk : k = "meta"
    · subst hk
      simp [scrubDraft, dset, ih]
    · rw [show dset ((k, w) :: t) "meta" M = (k, w) :: dset t "meta" M from by
        simp [dset, hk]]
      rw [show scrubDraft ((k, w) :: dset t "meta" M)
            = (k, w) :: scrubDraft (dset t "meta" M) from by simp [scrubDraft, hk]]
      rw [ih]
      rw [show scrubDraft ((k, w) :: t) = (k, w) :: scrubDraft t from by
        simp [scrubDraft, hk]]
      simp [dset, hk]

theorem scrubMeta_metaFor (cs : Option PyDict) (t1 t2 : String) :
    scrubMeta (.obj (Step4JSONStore.metaFor cs t1)) =
      scrubMeta (.obj (Step4JSONStore.metaFor cs t2)) := by
  cases cs <;> rfl

/-- Running the `upsert_field` body a second time with the same arguments
writes the same draft back, except for the fresh `meta.last_updated`. -/
theorem upsertStep_stable_after (d0 h : PyDict) (f : String) (v : JVal)
    (cs : Option PyDict) (t1 t2 : String) (hnd : NodupKeys h) :
    (Step4JSONStore.upsertStep d0 h f v cs t1).1 =
      .jcontent (.obj (Step4JSONStore.upsertStep d0 h f v cs t1).2) ∧
    scrubPair (Step4JSONStore.upsertStep
        (Step4JSONStore.upsertStep d0 h f v cs t1).2 h f v cs t2) =
      scrubPair (Step4JSONStore.upsertStep d0 h f v cs t1) := by
  obtain ⟨D, H, U, heq, hDH, hDU, hHh, hUfv, _, _, _⟩ :=
    upsertStep_spec d0 h f v cs t1 hnd
  rw [heq]
  dsimp only
  have hXH : dget (dset D "meta" (JVal.obj (metaFor cs t1))) "header"
      = some (.obj H) := by
    rw [dget_dset_ne _ _ _ _ (by decide)]; exact hDH
  have hXU : dget (dset D "meta" (JVal.obj (metaFor cs t1))) "user_specs"
      = some (.obj U) := by
    rw [dget_dset_ne _ _ _ _ (by decide)]; exact hDU
  refine ⟨rfl, ?_⟩
  unfold Step4JSONStore.upsertStep
  rw [mergeHeaderStep_stable _ _ _ hXH hHh, setSpecStep_stable _ _ _ _ hXU hUfv]
  simp only [Step4JSONStore.save, scrubPair, scrubFile, dset_dset_same]
  rw [scrubDraft_dset_meta, scrubDraft_dset_meta, scrubMeta_metaFor cs t2 t1]

/-- C2: calling `upsert_field` twice with identical
`(header, field, value, completion_status)` arguments leaves the persisted
draft file and the returned draft equal to those of the first call, up to
`meta.last_updated` (and a load failure on an unparseable file leaves the
file untouched both times). -/
theorem upsert_field_idempotent (fs : FileState) (h : PyDict) (f : String) (v : JVal)
    (cs : Option PyDict) (t1 t2 : String) (hnd : NodupKeys h) :
    Except.map scrubPair (upsertTwice fs h f v cs t1 t2) =
      Except.map scrubPair (Step4JSONStore.upsert_field fs h f v cs t1) := by
  have core : ∀ d0 : PyDict,
      Except.map scrubPair
        (Step4JSONStore.upsert_field
          (Step4JSONStore.upsertStep d0 h f v cs t1).1 h f v cs t2) =
      Except.map scrubPair
        (Except.ok (ε := String) (Step4JSONStore.upsertStep d0 h f v cs t1)) := by
    intro d0
    obtain ⟨h1, h2⟩ := upsertStep_stable_after d0 h f v cs t1 t2 hnd
    rw [h1]
    show Except.ok (scrubPair (Step4JSONStore.upsertStep
        (Step4JSONStore.upsertStep d0 h f v cs t1).2 h f v cs t2)) = _
    rw [h2]
    rfl
  cases fs with
  | malformed => rfl
  | absent => exact core []
  | jcontent v =>
    cases v with
    | obj d => exact core d
    | null => exact core []
    | bool b => exact core []
    | num n => exact core []
    | str s => exact core []
    | arr l => exact core []

/-- C2 witness: a concrete starting draft, header and field. -/
theorem upsert_field_idempotent_witness :
    Except.map scrubPair
      (upsertTwice (.jcontent (.obj [("header", .obj [("portfolio", .str "Retail")])]))
        [("model_type", .str "PD")] "x" (.num 1) none "T1" "T2") =
    Except.map scrubPair
      (Step4JSONStore.upsert_field
        (.jcontent (.obj [("header", .obj [("portfolio", .str "Retail")])]))
        [("model_type", .str "PD")] "x" (.num 1) none "T1") :=
  upsert_field_idempotent _ _ _ _ _ _ _ (by decide)

/-! ## C8 : `upsert_field` frame property -/

/-- C8: after `upsert_field(header, field, value)` on a loadable draft-file
state, the persisted draft (also the returned one) maps `field` to `value`
in `user_specs`, keeps every other previously present `user_specs` entry
unchanged, gives every key of the passed `header` its new value
(last-write-wins) and preserves every previously present header key not in
the passed header. -/
theorem upsert_field_frame (fs : FileState) (d0 h : PyDict) (f : String) (v : JVal)
    (cs : Option PyDict) (now : String) (hload : Step4JSONStore.load fs = .ok d0)
    (hnd : NodupKeys h) :
    ∃ d1 H U,
      Step4JSONStore.upsert_field fs h f v cs now = .ok (.jcontent (.obj d1), d1) ∧
      dget d1 "header" = some (.obj H) ∧
      dget d1 "user_specs" = some (.obj U) ∧
      dget U f = some v ∧
      (∀ k, k ≠ f → dget U k = dget (subDict d0 "user_specs") k) ∧
      (∀ k, dget H k = match dget h k with
        | some w => some w
        | none => dget (subDict d0 "header") k) := by
  obtain ⟨D, H, U, heq, hDH, hDU, _, _, hHchar, hUf, hUchar⟩ :=
    upsertStep_spec d0 h f v cs now hnd
  refine ⟨dset D "meta" (.obj (metaFor cs now)), H, U, ?_, ?_, ?_, hUf, hUchar, hHchar⟩
  · unfold Step4JSONStore.upsert_field
    rw [hload]
    show Except.ok (Step4JSONStore.upsertStep d0 h f v cs now) = _
    rw [heq]
  · rw [dget_dset_ne _ _ _ _ (by decide)]; exact hDH
  · rw [dget_dset_ne _ _ _ _ (by decide)]; exact hDU

/-- C8 witness: a concrete prior draft with one header key and one answered
field; the untouched field and header key survive, the new ones land. -/
theorem upsert_field_frame_witness :
    ∃ d1 H U,
      Step4JSONStore.upsert_field
          (.jcontent (.obj [("header", .obj [("portfolio", .str "Retail")]),
                            ("user_specs", .obj [("y", .num 2)])]))
          [("model_type", .str "PD")] "x" (.num 1) none "T"
        = .ok (.jcontent (.obj d1), d1) ∧
      dget d1 "header" = some (.obj H) ∧
      dget d1 "user_specs" = some (.obj U) ∧
      dget U "x" = some (.num 1) ∧
      dget U "y" = some (.num 2) ∧
      dget H "model_type" = some (.str "PD") ∧
      dget H "portfolio" = some (.str "Retail") := by
  obtain ⟨d1, H, U, he, hH, hU, hUf, hUfr, hHc⟩ :=
    upsert_field_frame
      (.jcontent (.obj [("header", .obj [("portfolio", .str "Retail")]),
                        ("user_specs", .obj [("y", .num 2)])]))
      [("header", .obj [("portfolio", .str "Retail")]),
       ("user_specs", .obj [("y", .num 2)])]
      [("model_type", .str "PD")] "x" (.num 1) none "T" rfl (by decide)
  refine ⟨d1, H, U, he, hH, hU, hUf, ?_, ?_, ?_⟩
  · rw [hUfr "y" (by decide)]; rfl
  · rw [hHc "model_type"]; rfl
  · rw [hHc "portfolio"]; rfl

/-! ## C3 : the execution ledger -/

theorem maxRowId_ge (rows : List ExecRow) (r : ExecRow) (hr : r ∈ rows) :
    r.id ≤ maxRowId rows := by
  induction rows with
  | nil => simp at hr
  | cons x t ih =>
    rcases List.mem_cons.mp hr with h | h
    · subst h
      exact le_max_left _ _
    · exact le_trans (ih h) (le_max_right _ _)

theorem insertRowDesc_perm (r : ExecRow) (l : List ExecRow) :
    List.Perm (insertRowDesc r l) (r :: l) := by
  induction l with
  | nil => exact List.Perm.refl _
  | cons x xs ih =>
    unfold insertRowDesc
    by_cases h : x.id ≤ r.id
    · simp only [if_pos h]
      exact List.Perm.refl _
    · simp only [if_neg h]
      exact List.Perm.trans (List.Perm.cons x ih) (List.Perm.swap r x xs)

theorem sortRowsDesc_perm (l : List ExecRow) :
    List.Perm (sortRowsDesc l) l := by
  induction l with
  | nil => exact List.Perm.refl _
  | cons x xs ih =>
    exact List.Perm.trans (insertRowDesc_perm x (sortRowsDesc xs)) (List.Perm.cons x ih)

theorem insertRowDesc_sorted (r : ExecRow) (l : List ExecRow)
    (hl : l.Pairwise (fun a b => b.id ≤ a.id)) :
    (insertRowDesc r l).Pairwise (fun a b => b.id ≤ a.id) := by
  induction l with
  | nil => simp [insertRowDesc]
  | cons x xs ih =>
    rcases List.pairwise_cons.mp hl with ⟨hx, hxs⟩
    unfold insertRowDesc
    by_cases h : x.id ≤ r.id
    · simp only [if_pos h]
      refine List.pairwise_cons.mpr ⟨?_, hl⟩
      intro b hb
      rcases List.mem_cons.mp hb with hbx | hbt
      · subst hbx; exact h
      · exact le_trans (hx b hbt) h
    · simp only [if_neg h]
      refine List.pairwise_cons.mpr ⟨?_, ih hxs⟩
      intro b hb
      rcases List.mem_cons.mp ((insertRowDesc_perm r xs).mem_iff.mp hb) with hbr | hbt
      · subst hbr; exact Nat.le_of_not_le h
      · exact hx b hbt

theorem sortRowsDesc_sorted (l : List ExecRow) :
    (sortRowsDesc l).Pairwise (fun a b => b.id ≤ a.id) := by
  induction l with
  | nil => simp [sortRowsDesc]
  | cons x xs ih => exact insertRowDesc_sorted x (sortRowsDesc xs) ih

/-- C3: ledger ids are strictly increasing and never reused, including
after a process restart against the same backing database file
(`_init_db` is a no-op on an existing database and the `AUTOINCREMENT`
sequence is part of the persisted state); `get_execution_history(limit=N)`
returns at most `N` records ordered by strictly descending id. -/
theorem ledger_spec (db : LedgerDB) (final_json : PyDict) (execution_result : JVal)
    (now : String) (N : Nat) (hwf : WFLedger db) :
    init_db (some db) = db ∧
    WFLedger (init_db none) ∧
    (∀ r ∈ db.rows, r.id < (save_execution_results db final_json execution_result now).1) ∧
    (save_execution_results db final_json execution_result now).1 ∉ db.rows.map ExecRow.id ∧
    WFLedger (save_execution_results db final_json execution_result now).2 ∧
    (get_execution_history db N).length ≤ N ∧
    ((get_execution_history db N).map (fun t => t.1)).Pairwise (fun a b => b < a) := by
  have hgt : ∀ r ∈ db.rows, r.id < max db.seq (maxRowId db.rows) + 1 := by
    intro r hr
    exact Nat.lt_succ_of_le (le_trans (maxRowId_ge db.rows r hr) (le_max_right _ _))
  refine ⟨rfl, by decide, hgt, ?_, ?_, ?_, ?_⟩
  · intro hmem
    rcases List.mem_map.mp hmem with ⟨r, hr, hid⟩
    exact absurd hid (Nat.ne_of_gt (hgt r hr)).symm
  · constructor
    · refine List.pairwise_append.mpr ⟨hwf.1, List.pairwise_singleton _ _, ?_⟩
      intro a ha b hb
      rcases List.mem_singleton.mp hb with rfl
      exact hgt a ha
    · intro r hr
      rcases List.mem_append.mp hr with h | h
      · exact le_trans (hwf.2 r h) (Nat.le_succ_of_le (le_max_left _ _))
      · rcases List.mem_singleton.mp h with rfl
        exact le_refl _
  · rw [get_execution_history, List.length_map]
    exact List.length_take_le _ _
  · have hsorted := sortRowsDesc_sorted db.rows
    have hne : db.rows.Pairwise (fun a b => a.id ≠ b.id) :=
      hwf.1.imp (fun h => Nat.ne_of_lt h)
    have hne' : (sortRowsDesc db.rows).Pairwise (fun a b => a.id ≠ b.id) :=
      ((sortRowsDesc_perm db.rows).pairwise_iff
        (fun h => Ne.symm h)).mpr hne
    have hstrict : (sortRowsDesc db.rows).Pairwise (fun a b => b.id < a.id) :=
      (hsorted.and hne').imp (fun h => lt_of_le_of_ne h.1 (Ne.symm h.2))
    have htake : ((sortRowsDesc db.rows).take N).Pairwise (fun a b => b.id < a.id) :=
      hstrict.sublist (List.take_sublist _ _)
    have h1 : (get_execution_history db N).Pairwise (fun a b => b.1 < a.1) := by
      unfold get_execution_history
      exact htake.map _ (fun a b h => h)
    exact h1.map _ (fun a b h => h)

/-- C3 witness: a concrete well-formed two-row database. -/
theorem ledger_spec_witness :
    (∀ r ∈ (⟨2, [⟨1, "t1", "h", "u", "ok", "r"⟩, ⟨2, "t2", "h", "u", "ok", "r"⟩]⟩ :
        LedgerDB).rows,
      r.id < (save_execution_results
        ⟨2, [⟨1, "t1", "h", "u", "ok", "r"⟩, ⟨2, "t2", "h", "u", "ok", "r"⟩]⟩
        [] (.obj []) "t3").1) ∧
    (get_execution_history
      ⟨2, [⟨1, "t1", "h", "u", "ok", "r"⟩, ⟨2, "t2", "h", "u", "ok", "r"⟩]⟩ 1).length ≤ 1 := by
  obtain ⟨_, _, h3, _, _, h6, _⟩ :=
    ledger_spec ⟨2, [⟨1, "t1", "h", "u", "ok", "r"⟩, ⟨2, "t2", "h", "u", "ok", "r"⟩]⟩
      [] (.obj []) "t3" 1 (by decide)
  exact ⟨h3, h6⟩

/-! ## C4 : `get_active_requirements` normalizes `mandatory` -/

theorem normalizeMandatory_spec (fc : JVal) (hty : MandatoryTyped fc) :
    (∀ m, mandatoryOf (normalizeMandatory fc) = some m → ∃ b, m = .bool b) ∧
    (∀ s, mandatoryOf fc = some (.str s) →
      mandatoryOf (normalizeMandatory fc) = some (.bool (pyLower s = "true"))) ∧
    (∀ b, mandatoryOf fc = some (.bool b) →
      mandatoryOf (normalizeMandatory fc) = some (.bool b)) := by
  cases fc with
  | obj fco =>
    cases hmd : dget fco "mandatory" with
    | none =>
      refine ⟨?_, ?_, ?_⟩ <;> intro x hx <;>
        simp [normalizeMandatory, mandatoryOf, hmd] at hx
    | some v =>
      cases v with
      | str s =>
        refine ⟨?_, ?_, ?_⟩
        · intro m hm
          simp only [normalizeMandatory, mandatoryOf, hmd, dget_dset_self,
            Option.some.injEq] at hm
          exact ⟨_, hm.symm⟩
        · intro s' hs'
          simp only [mandatoryOf, hmd, Option.some.injEq, JVal.str.injEq] at hs'
          subst hs'
          simp only [normalizeMandatory, mandatoryOf, hmd, dget_dset_self]
        · intro b hb
          simp [mandatoryOf, hmd] at hb
      | bool b =>
        refine ⟨?_, ?_, ?_⟩
        · intro m hm
          simp only [normalizeMandatory, mandatoryOf, hmd, Option.some.injEq] at hm
          exact ⟨b, hm.symm⟩
        · intro s hs
          simp [mandatoryOf, hmd] at hs
        · intro b' hb'
          simp only [mandatoryOf, hmd, Option.some.injEq, JVal.bool.injEq] at hb'
          subst hb'
          simp only [normalizeMandatory, mandatoryOf, hmd]
      | null =>
        rcases hty JVal.null (by simp [mandatoryOf, hmd]) with ⟨b, hb⟩ | ⟨s, hs⟩ <;>
          simp_all
      | num n =>
        rcases hty (JVal.num n) (by simp [mandatoryOf, hmd]) with ⟨b, hb⟩ | ⟨s, hs⟩ <;>
          simp_all
      | arr l =>
        rcases hty (JVal.arr l) (by simp [mandatoryOf, hmd]) with ⟨b, hb⟩ | ⟨s, hs⟩ <;>
          simp_all
      | obj o =>
        rcases hty (JVal.obj o) (by simp [mandatoryOf, hmd]) with ⟨b, hb⟩ | ⟨s, hs⟩ <;>
          simp_all
  | null => refine ⟨?_, ?_, ?_⟩ <;> intro x hx <;> simp [normalizeMandatory, mandatoryOf] at hx
  | bool b => refine ⟨?_, ?_, ?_⟩ <;> intro x hx <;> simp [normalizeMandatory, mandatoryOf] at hx
  | num n => refine ⟨?_, ?_, ?_⟩ <;> intro x hx <;> simp [normalizeMandatory, mandatoryOf] at hx
  | str s => refine ⟨?_, ?_, ?_⟩ <;> intro x hx <;> simp [normalizeMandatory, mandatoryOf] at hx
  | arr l => refine ⟨?_, ?_, ?_⟩ <;> intro x hx <;> simp [normalizeMandatory, mandatoryOf] at hx

/-- C4: for a schema document whose requirement set under the looked-up key
is well-typed (every field spec's `mandatory` is a boolean or a string, as
§6 prescribes), `get_active_requirements` returns the set with every
`mandatory` a boolean, never a string: a textual value is converted
case-insensitively, true exactly when it equals `"true"` ignoring case,
and a boolean value is kept. -/
theorem get_active_requirements_mandatory_bool (data : PyDict)
    (purpose model_type : String) (req : List (String × JVal))
    (hk : dget data (build_lookup_key purpose model_type) = some (.obj req))
    (hty : ∀ p ∈ req, MandatoryTyped p.2) :
    ∃ req',
      get_active_requirements (.jcontent (.obj data)) purpose model_type = .ok (.obj req') ∧
      req' = req.map (fun p => (p.1, normalizeMandatory p.2)) ∧
      (∀ q ∈ req', ∀ m, mandatoryOf q.2 = some m → ∃ b, m = .bool b) ∧
      (∀ p ∈ req, ∀ s, mandatoryOf p.2 = some (.str s) →
        mandatoryOf (normalizeMandatory p.2) = some (.bool (pyLower s = "true"))) ∧
      (∀ p ∈ req, ∀ b, mandatoryOf p.2 = some (.bool b) →
        mandatoryOf (normalizeMandatory p.2) = some (.bool b)) := by
  refine ⟨req.map (fun p => (p.1, normalizeMandatory p.2)), ?_, rfl, ?_, ?_, ?_⟩
  · simp [get_active_requirements, load_requirements_file, hk]
  · intro q hq m hm
    rcases List.mem_map.mp hq with ⟨p, hp, rfl⟩
    exact (normalizeMandatory_spec p.2 (hty p hp)).1 m hm
  · intro p hp s hs
    exact (normalizeMandatory_spec p.2 (hty p hp)).2.1 s hs
  · intro p hp b hb
    exact (normalizeMandatory_spec p.2 (hty p hp)).2.2 b hb

/-- C4 witness: a one-configuration document with a textual `"True"` and a
boolean `false`; the resolved set carries only booleans. -/
theorem get_active_requirements_mandatory_bool_witness :
    ∃ req',
      get_active_requirements
        (.jcontent (.obj [("AIRB_PD_Requirements",
          .obj [("f1", .obj [("mandatory", .str "True")]),
                ("f2", .obj [("mandatory", .bool false)])])])) "AIRB" "PD" =
        .ok (.obj req') ∧
      (∀ q ∈ req', ∀ m, mandatoryOf q.2 = some m → ∃ b, m = .bool b) := by
  obtain ⟨req', h1, _, h3, _, _⟩ :=
    get_active_requirements_mandatory_bool
      [("AIRB_PD_Requirements",
        .obj [("f1", .obj [("mandatory", .str "True")]),
              ("f2", .obj [("mandatory", .bool false)])])] "AIRB" "PD"
      [("f1", .obj [("mandatory", .str "True")]),
       ("f2", .obj [("mandatory", .bool false)])]
      rfl
      (by
        intro p hp
        rcases List.mem_cons.mp hp with rfl | hp2
        · intro m hm
          simp [mandatoryOf, dget] at hm
          subst hm
          exact Or.inr ⟨"True", rfl⟩
        · rcases List.mem_cons.mp hp2 with rfl | hp3
          · intro m hm
            simp [mandatoryOf, dget] at hm
            subst hm
            exact Or.inl ⟨false, rfl⟩
          · simp at hp3)
  exact ⟨req', h1, h3⟩

/-! ## C6 : `get_available_configurations` -/

theorem pySplitCh_ne_nil (c : Char) (l : List Char) : pySplitCh c l ≠ [] := by
  cases l with
  | nil => simp [pySplitCh]
  | cons x xs =>
    unfold pySplitCh
    by_cases h : x = c
    · simp [h]
    · simp only [if_neg h]
      cases pySplitCh c xs <;> simp

theorem pySplitCh_cons_exists (c : Char) (l : List Char) :
    ∃ s0 rest, pySplitCh c l = s0 :: rest := by
  cases hsp : pySplitCh c l with
  | nil => exact absurd hsp (pySplitCh_ne_nil c l)
  | cons s0 rest => exact ⟨s0, rest, rfl⟩

theorem pySplitCh_cons_sep (c : Char) (xs : List Char) :
    pySplitCh c (c :: xs) = [] :: pySplitCh c xs := by
  rw [pySplitCh]
  simp

theorem pySplitCh_cons_ne (c x : Char) (xs : List Char) (h : x ≠ c) :
    pySplitCh c (x :: xs) =
      match pySplitCh c xs with
      | [] => [[x]]
      | seg :: rest => (x :: seg) :: rest := by
  rw [pySplitCh]
  simp [h]

/-- `split` distributes over a separator occurrence. -/
theorem pySplitCh_append_sep (c : Char) (a b : List Char) :
    pySplitCh c (a ++ c :: b) = pySplitCh c a ++ pySplitCh c b := by
  induction a with
  | nil =>
    show pySplitCh c (c :: b) = pySplitCh c [] ++ pySplitCh c b
    rw [pySplitCh_cons_sep]
    rfl
  | cons x xs ih =>
    simp only [List.cons_append]
    by_cases h : x = c
    · subst h
      rw [pySplitCh_cons_sep, pySplitCh_cons_sep, ih, List.cons_append]
    · obtain ⟨s0, rest, hs⟩ := pySplitCh_cons_exists c xs
      rw [pySplitCh_cons_ne c x _ h, pySplitCh_cons_ne c x xs h, ih, hs]
      simp

/-- A separator-free chunk splits into itself. -/
theorem pySplitCh_no_sep (c : Char) (l : List Char) (h : c ∉ l) :
    pySplitCh c l = [l] := by
  induction l with
  | nil => rfl
  | cons x xs ih =>
    have hx : x ≠ c := fun he => h (he ▸ List.mem_cons_self x xs)
    unfold pySplitCh
    rw [if_neg hx, ih (fun hc => h (List.mem_cons_of_mem _ hc))]

theorem joinCh_append_empty (c : Char) (xs : List (List Char)) (h : xs ≠ []) :
    joinCh c (xs ++ [[]]) = joinCh c xs ++ [c] := by
  induction xs with
  | nil => simp at h
  | cons x t ih =>
    cases t with
    | nil => rfl
    | cons y s =>
      simp only [List.cons_append]
      show x ++ c :: joinCh c ((y :: s) ++ [[]]) = (x ++ c :: joinCh c (y :: s)) ++ [c]
      rw [ih (by simp)]
      simp

theorem rstripCh_append_sep (c : Char) (x : List Char) :
    rstripCh c (x ++ [c]) = rstripCh c x := by
  simp [rstripCh, List.dropWhile]

theorem headD_append_ne_nil {α : Type} (a b : List α) (d : α) (h : a ≠ []) :
    (a ++ b).headD d = a.headD d := by
  cases a with
  | nil => simp at h
  | cons x t => rfl

theorem parseConfigKey_none (key : String) (h : pyEndsWith key "_Requirements" = false) :
    parseConfigKey key = none := by
  unfold parseConfigKey
  simp [h]

theorem specConfigPurpose_eq (pre : List Char) :
    specConfigPurpose (String.mk (pre ++ "_Requirements".data)) =
      String.mk ((pySplitCh '_' pre).headD []) := by
  unfold specConfigPurpose
  have hdata : (String.mk (pre ++ "_Requirements".data)).data
      = pre ++ '_' :: "Requirements".data := rfl
  rw [hdata, pySplitCh_append_sep,
    pySplitCh_no_sep '_' "Requirements".data (by decide),
    headD_append_ne_nil _ _ _ (pySplitCh_ne_nil _ _)]

theorem specConfigModelType_eq (pre : List Char) :
    specConfigModelType (String.mk (pre ++ "_Requirements".data)) =
      String.mk (rstripCh '_' (joinCh '_' ((pySplitCh '_' pre).drop 1))) := by
  unfold specConfigModelType segsBeforeSuffix
  have hdata : (String.mk (pre ++ "_Requirements".data)).data
      = pre ++ "_Requirements".data := rfl
  have hlen : (pre ++ "_Requirements".data).length - 13 = pre.length := by
    simp [List.length_append]
  rw [hdata, hlen, List.take_left]

/-- The key parse of `get_available_configurations`, on an arbitrary key
ending in `"_Requirements"`: accepted, with the claim's purpose (first
underscore-delimited segment of the key) and model type (remaining
pre-suffix segments joined with underscores, trailing underscores
stripped). -/
theorem parseConfigKey_spec (pre : List Char) :
    parseConfigKey (String.mk (pre ++ "_Requirements".data)) =
      some (specConfigPurpose (String.mk (pre ++ "_Requirements".data)),
            specConfigModelType (String.mk (pre ++ "_Requirements".data))) := by
  rw [specConfigPurpose_eq, specConfigModelType_eq]
  have hends : pyEndsWith (String.mk (pre ++ "_Requirements".data)) "_Requirements" = true := by
    simp only [pyEndsWith, decide_eq_true_eq]
    exact ⟨pre, rfl⟩
  have hdata : (String.mk (pre ++ "_Requirements".data)).data
      = (pre ++ ['_']) ++ "Requirements".data := by simp
  have hlen : ((pre ++ ['_']) ++ "Requirements".data).length - 12 = (pre ++ ['_']).length := by
    simp [List.length_append]
  have htake : (String.mk (pre ++ "_Requirements".data)).data.take
      ((String.mk (pre ++ "_Requirements".data)).data.length - 12) = pre ++ ['_'] := by
    rw [hdata, hlen, List.take_left]
  have hparts : pySplitCh '_' (pre ++ ['_']) = pySplitCh '_' pre ++ [[]] := by
    have h := pySplitCh_append_sep '_' pre []
    simpa [pySplitCh] using h
  obtain ⟨s0, rest, hs⟩ := pySplitCh_cons_exists '_' pre
  unfold parseConfigKey
  rw [hends]
  simp only [if_true]
  rw [htake, hparts, hs]
  cases rest with
  | nil =>
    simp [joinCh, rstripCh]
  | cons r rs =>
    have hlen2 : ((s0 :: r :: rs) ++ [[]]).length > 2 := by
      simp [List.length_append]
    simp only [List.cons_append, List.length_cons, ge_iff_le]
    rw [if_pos (by simp), if_pos (by simp [Nat.succ_le_succ])]
    show some (String.mk s0, String.mk (rstripCh '_'
        (joinCh '_' ((r :: rs) ++ [[]])))) = _
    rw [joinCh_append_empty '_' (r :: rs) (by simp), rstripCh_append_sep]
    rfl

theorem buildConfigs_dget_not_mem (data : PyDict) (acc : PyDict) (k : String)
    (hk : k ∉ dkeys data) : dget (buildConfigs data acc) k = dget acc k := by
  induction data generalizing acc with
  | nil => rfl
  | cons p t ih =>
    have hk1 : k ≠ p.1 := by
      intro he
      exact hk (by simp [dkeys, he])
    have hk2 : k ∉ dkeys t := fun hc => hk (by simp [dkeys] at hc ⊢; exact Or.inr hc)
    show dget (buildConfigs t _) k = dget acc k
    cases hp : parseConfigKey p.1 with
    | none => simp only [hp]; exact ih _ hk2
    | some pm =>
      simp only [hp]
      rw [ih _ hk2]
      exact dget_dset_ne _ _ _ _ hk1

theorem buildConfigs_dget_mem (data : PyDict) (acc : PyDict) (k : String) (v : JVal)
    (hnd : NodupKeys data) (hm : (k, v) ∈ data) :
    dget (buildConfigs data acc) k =
      match parseConfigKey k with
      | some pm => some (.obj [("purpose", .str pm.1), ("model_type", .str pm.2)])
      | none => dget acc k := by
  induction data generalizing acc with
  | nil => simp at hm
  | cons p t ih =>
    unfold NodupKeys dkeys at hnd
    simp only [List.map_cons, List.nodup_cons] at hnd
    rcases List.mem_cons.mp hm with h | h
    · obtain ⟨k', v'⟩ := p
      simp only [Prod.mk.injEq] at h
      obtain ⟨rfl, rfl⟩ := h
      have hkt : k ∉ dkeys t := fun hc => hnd.1 hc
      show dget (buildConfigs t _) k = _
      cases hp : parseConfigKey k with
      | none =>
        simp only [hp]
        exact buildConfigs_dget_not_mem t _ k hkt
      | some pm =>
        simp only [hp]
        rw [buildConfigs_dget_not_mem t _ k hkt, dget_dset_self]
    · have hk1 : k ≠ p.1 := fun he => hnd.1 (List.mem_map.mpr ⟨(k, v), h, he⟩)
      show dget (buildConfigs t _) k = _
      cases hp : parseConfigKey p.1 with
      | none => simp only [hp]; exact ih _ hnd.2 h
      | some pm =>
        simp only [hp]
        rw [ih _ hnd.2 h]
        cases hpk : parseConfigKey k with
        | none => exact dget_dset_ne _ _ _ _ hk1
        | some pm' => rfl

/-- Every string ending in `"_Requirements"` is a chunk followed by the
literal suffix. -/
theorem endsWithReq_exists (k : String) (h : pyEndsWith k "_Requirements" = true) :
    ∃ pre, k = String.mk (pre ++ "_Requirements".data) := by
  simp only [pyEndsWith, decide_eq_true_eq] at h
  obtain ⟨pre, hpre⟩ := h
  refine ⟨pre, ?_⟩
  cases k with
  | mk d => exact congrArg String.mk hpre.symm

/-- C6: on a loaded schema document, the returned mapping holds exactly the
document keys ending in `"_Requirements"` (each of which splits into at
least two underscore-delimited segments), mapped to `purpose` = the key's
first underscore-delimited segment and `model_type` = the remaining
pre-suffix segments joined with underscores (trailing underscores
stripped); a missing or unparseable schema file yields an empty mapping
instead of an error. -/
theorem get_available_configurations_spec (data : PyDict) (hnd : NodupKeys data) :
    get_available_configurations .absent = .ok [] ∧
    get_available_configurations .malformed = .ok [] ∧
    ∃ m : PyDict, get_available_configurations (.jcontent (.obj data)) = .ok m ∧
      (∀ k v, (k, v) ∈ data →
        dget m k =
          if pyEndsWith k "_Requirements" = true then
            some (.obj [("purpose", .str (specConfigPurpose k)),
                        ("model_type", .str (specConfigModelType k))])
          else none) ∧
      (∀ k, k ∉ dkeys data → dget m k = none) ∧
      (∀ k, pyEndsWith k "_Requirements" = true →
        (pySplitCh '_' k.data).length ≥ 2) := by
  refine ⟨rfl, rfl, buildConfigs data [], rfl, ?_, ?_, ?_⟩
  · intro k v hm
    rw [buildConfigs_dget_mem data [] k v hnd hm]
    by_cases h : pyEndsWith k "_Requirements" = true
    · obtain ⟨pre, rfl⟩ := endsWithReq_exists k h
      rw [parseConfigKey_spec pre]
      simp [h]
    · rw [parseConfigKey_none k (by simp at h; exact h)]
      simp [h, dget]
  · intro k hk
    rw [buildConfigs_dget_not_mem data [] k hk]
    rfl
  · intro k h
    obtain ⟨pre, rfl⟩ := endsWithReq_exists k h
    have hdata : (String.mk (pre ++ "_Requirements".data)).data
        = pre ++ '_' :: "Requirements".data := rfl
    rw [hdata, pySplitCh_append_sep,
      pySplitCh_no_sep '_' "Requirements".data (by decide)]
    obtain ⟨s0, rest, hs⟩ := pySplitCh_cons_exists '_' pre
    rw [hs]
    simp [Nat.succ_le_succ]

/-- C6 witness: a document with one suffix key and one other key. -/
theorem get_available_configurations_spec_witness :
    ∃ m : PyDict,
      get_available_configurations
        (.jcontent (.obj [("AIRB_PD_Requirements", .null), ("notes", .null)])) = .ok m ∧
      dget m "AIRB_PD_Requirements" =
        some (.obj [("purpose", .str "AIRB"), ("model_type", .str "PD")]) ∧
      dget m "nothere" = none := by
  obtain ⟨_, _, m, h1, h2, h3, _⟩ :=
    get_available_configurations_spec
      [("AIRB_PD_Requirements", .null), ("notes", .null)] (by decide)
  refine ⟨m, h1, ?_, ?_⟩
  · rw [h2 "AIRB_PD_Requirements" .null (by simp)]
    have hcond : pyEndsWith "AIRB_PD_Requirements" "_Requirements" = true := by decide
    rw [if_pos hcond]
    have hp : specConfigPurpose "AIRB_PD_Requirements" = "AIRB" := by decide
    have hmm : specConfigModelType "AIRB_PD_Requirements" = "PD" := by decide
    rw [hp, hmm]
  · exact h3 "nothere" (by decide)

end DiagPipeline
